import Mathlib

/-!
Verification development for the `uatlib` auction simulator
(`src/src/simulation.cpp`, `src/src/permit.cpp`, `src/include/uat/agent.hpp`).

The driver `uat::simulate` is shallowly embedded here: regions are opaque
hashable keys and are modelled as naturals, `uint_t` and `value_t` as `Nat`,
`id_t` owners as `Option Nat` (with `none` playing the role of `no_owner`),
and the deque of per-tick hash maps as a list of association lists.  Agent
callbacks are external user code; they are modelled as scripts: a list of bid
submissions, a list of ask submissions and a stop answer, each a function of
the tick and the seed the driver hands over.  The master RNG `std::mt19937`
is not part of this repository; following the spec it is modelled as a
deterministic stream of draws.
-/

namespace UAT

/-- Permit private state, translated from the `private_status` variant used by
`simulation.cpp` (`out_of_limits`, `onsale`, `used`).  Owners and bidders are
`Option Nat`, with `none` standing for the `no_owner` sentinel. -/
inductive PrivateStatus where
  | out_of_limits : PrivateStatus
  | onsale (owner : Option Nat) (min_value : Nat)
      (highest_bidder : Option Nat) (highest_bid : Nat) : PrivateStatus
  | used (owner : Option Nat) : PrivateStatus
deriving DecidableEq, Repr

/-- Modelled from the spec: the header defining `private_status` is not under
`src/`; per the spec a freshly-instantiated key holds
`onsale { owner: no_owner, min_value: 0, highest_bidder: no_owner, highest_bid: 0 }`,
which is the value default-constructed by `unordered_map::operator[]`. -/
def defaultStatus : PrivateStatus := .onsale none 0 none 0

/-- A permit key `tslot`: the opaque region paired with its time. -/
abbrev Key := Nat × Nat

/-- One per-tick `unordered_map<tslot, private_status>`, as an association list. -/
abbrev Bucket := List (Key × PrivateStatus)

/-- The deque of per-tick maps (`std::deque<std::unordered_map<...>> data`). -/
abbrev Data := List Bucket

/-- Lookup in one per-tick map. -/
def bucketFind : Bucket → Key → Option PrivateStatus
  | [], _ => none
  | kv :: rest, k => if kv.1 = k then some kv.2 else bucketFind rest k

/-- Insert-or-overwrite in one per-tick map (`operator[]` followed by
assignment). -/
def bucketInsert (b : Bucket) (k : Key) (v : PrivateStatus) : Bucket :=
  match b with
  | [] => [(k, v)]
  | kv :: rest => if kv.1 = k then (k, v) :: rest else kv :: bucketInsert rest k v

/-- `operator[]` access: return the stored value, or materialize the default. -/
def bucketEnsure (b : Bucket) (k : Key) : PrivateStatus × Bucket :=
  match bucketFind b k with
  | some v => (v, b)
  | none => (defaultStatus, b ++ [(k, defaultStatus)])

/-- The `while (t - t0 >= data.size()) data.emplace_back();` loop: pad the
deque with empty maps until index `n` exists. -/
def extendTo (d : Data) (n : Nat) : Data :=
  d ++ List.replicate (n + 1 - d.length) []

/-- The window test of `book`: `opts.time_window && t > t0 + *opts.time_window`. -/
def outOfWindow (t0 : Nat) (win : Option Nat) (t : Nat) : Bool :=
  match win with
  | none => false
  | some w => decide (t0 + w < t)

/-- The `book` lambda of `simulate` used as an rvalue (read access at
`data[t - t0][{slot, t}]`, materializing absent keys).  The C++ starts with
`assert(t >= t0)`; a call with `t < t0` violates that precondition (and, with
assertions disabled, underflows `t - t0`), which is modelled as `none`.
Out-of-window accesses yield the shared `out_of_limits` sentinel and leave the
deque untouched. -/
def bookRead (t0 : Nat) (win : Option Nat) (d : Data) (s t : Nat) :
    Option (PrivateStatus × Data) :=
  if t < t0 then none
  else if outOfWindow t0 win t then some (.out_of_limits, d)
  else
    some ((bucketEnsure ((extendTo d (t - t0)).getD (t - t0) []) (s, t)).1,
      (extendTo d (t - t0)).set (t - t0)
        (bucketEnsure ((extendTo d (t - t0)).getD (t - t0) []) (s, t)).2)

/-- In-place mutation through a reference previously handed out by `book`:
overwrite the entry of key `k` in bucket `idx`. -/
def dataSet (idx : Nat) (d : Data) (k : Key) (v : PrivateStatus) : Data :=
  d.set idx (bucketInsert (d.getD idx []) k v)

/-- The `book` lambda used as the target of an assignment
(`book(s, t) = v;`).  For `t < t0` the assertion fires (`none`); writes that
land on the sentinel are modelled as no-ops (the driver never performs one:
it pattern-matches before mutating). -/
def bookWrite (t0 : Nat) (win : Option Nat) (d : Data) (s t : Nat)
    (v : PrivateStatus) : Option Data :=
  if t < t0 then none
  else if outOfWindow t0 win t then some d
  else some (dataSet (t - t0) (extendTo d (t - t0)) (s, t) v)

/-- Pure observation of the ledger (no materialization): the entry stored for
key `(s, t)` in bucket `t - t0`, if any. -/
def peek (t0 : Nat) (d : Data) (s t : Nat) : Option PrivateStatus :=
  bucketFind (d.getD (t - t0) []) (s, t)

/-- Public (per-agent) status, translated from the `slot_status` variant
produced by `public_access`.  The `trades` accessor of `available`
(`std::function<const std::vector<trade_value_t>&()>`, see
`include/uat/agent.hpp`) is modelled as an `Option` of the history list;
`none` stands for a default-constructed (empty) `std::function`. -/
inductive SlotStatus where
  | unavailable : SlotStatus
  | available (min_value : Nat) (trades : Option (List (Nat × Nat))) : SlotStatus
  | owned : SlotStatus
deriving DecidableEq, Repr

/-- The visitor inside `public_access` (simulation.cpp lines 47-51): the
per-agent projection of a ledger entry.  Note that line 50 constructs
`available{status.min_value}` and therefore leaves the `trades` member
default-constructed. -/
def project (id : Nat) : PrivateStatus → SlotStatus
  | .out_of_limits => .unavailable
  | .used o => if o = some id then .owned else .unavailable
  | .onsale o mv _ _ => if o = some id then .unavailable else .available mv none

/-- The `public_access` closure: `book` followed by the projection.  It does
not guard `t < t0`, so the `book` precondition is exposed to the agent. -/
def publicAccess (id t0 : Nat) (win : Option Nat) (d : Data) (s t : Nat) :
    Option (SlotStatus × Data) :=
  (bookRead t0 win d s t).map (fun vd => (project id vd.1, vd.2))

/-- Modelled from the spec: the agent header used by this `simulation.cpp`
(declaring `act` and `after_auction`) is not under `src/`.  Agents are
external code; they are modelled as scripts: the bid submissions and ask
submissions they issue, and their stop answer, as functions of the tick and
of the seed drawn for them. -/
structure AgentSpec where
  bids : Nat → Nat → List (Nat × Nat × Nat)
  asks : Nat → Nat → List (Nat × Nat × Nat)
  stop : Nat → Nat → Bool

/-- Inert agent used for (unreachable) out-of-range roster indexing. -/
def defaultAgent : AgentSpec :=
  { bids := fun _ _ => [], asks := fun _ _ => [], stop := fun _ _ => true }

/-- Roster indexing `agents[id]`. -/
def getAgent (agents : List AgentSpec) (id : Nat) : AgentSpec :=
  agents.getD id defaultAgent

/-- Modelled from the spec: `std::mt19937` is outside this repository; the
spec only requires a deterministic draw sequence seeded once, so the
generator state is a natural and each draw returns it and advances it. -/
def rngNext (s : Nat) : Nat × Nat := (s, s + 1)

/-- The first `n` draws issued from generator state `r`. -/
def seedsFrom (r : Nat) : Nat → List Nat
  | 0 => []
  | n + 1 => (rngNext r).1 :: seedsFrom (rngNext r).2 n

/-- Observable events of one run: trade-callback records and agent
notifications, in delivery order. -/
inductive Event where
  | trade (tick : Nat) (seller : Option Nat) (buyer : Nat) (s t price : Nat) : Event
  | bought (who s t price : Nat) : Event
  | sold (who s t price : Nat) : Event
  | finished (who t : Nat) : Event
deriving DecidableEq, Repr

/-- `stop_criteria` of `simulation_opts_t`. -/
inductive StopCriteria where
  | no_agents : StopCriteria
  | time_threshold (t : Nat) : StopCriteria
deriving DecidableEq, Repr

/-- `simulation_opts_t`.  The status callback is external code; it is
modelled as the script of `book` queries it issues, as a function of the
tick.  The trade callback is modelled by whether it is configured; its
invocations appear as `Event.trade` in the trace. -/
structure SimOpts where
  time_window : Option Nat
  stop_criteria : StopCriteria
  status_callback : Option (Nat → List (Nat × Nat))
  trade_callback : Bool

/-- State threaded through one agent's bid callback: the ledger, the
`bids` list of first-accepted keys, and (as a ghost observation used only in
statements) the keys of all accepted submissions in order, i.e. of every
submission that executed the mutation at lines 92-96. -/
structure BidAcc where
  data : Data
  bids : List Key
  accepted : List Key

/-- The bid callback handed to `act` (simulation.cpp lines 84-101).  Note
that the `onsale` visitor returns `true` unconditionally: a submission that
fails the strict comparisons still yields `true`, it merely skips the
mutation. -/
def bidCb (id t0 : Nat) (win : Option Nat) (acc : BidAcc) (s t v : Nat) :
    Bool × BidAcc :=
  if t < t0 then (false, acc)
  else
    match bookRead t0 win acc.data s t with
    | none => (false, acc)
    | some (e, d) =>
      match e with
      | .out_of_limits => (false, { acc with data := d })
      | .used _ => (false, { acc with data := d })
      | .onsale o mv hb hv =>
        if mv < v ∧ hv < v then
          (true,
            { data := dataSet (t - t0) d (s, t) (.onsale o mv (some id) v),
              bids := if hb = none then acc.bids ++ [(s, t)] else acc.bids,
              accepted := acc.accepted ++ [(s, t)] })
        else (true, { acc with data := d })

/-- Apply one agent's scripted bid submissions in order. -/
def runAgentBids (id t0 : Nat) (win : Option Nat) (acc : BidAcc)
    (subs : List (Nat × Nat × Nat)) : BidAcc :=
  subs.foldl (fun a sub => (bidCb id t0 win a sub.1 sub.2.1 sub.2.2).2) acc

/-- Modelled from the spec: `agent::act` (header not under `src/`) runs the
agent's bid-phase behaviour with the drawn seed and then polls
`stop(t, seed)`; its boolean result — which the driver stores in `r` and
branches on — is the negation of `stop`. -/
def actAgent (ag : AgentSpec) (id t0 : Nat) (win : Option Nat) (acc : BidAcc)
    (seed : Nat) : Bool × BidAcc :=
  (!(ag.stop t0 seed), runAgentBids id t0 win acc (ag.bids t0 seed))

/-- State threaded through the phase-2 loop over `active`. -/
structure Phase2Acc where
  data : Data
  bids : List Key
  accepted : List Key
  keep_active : List Nat
  to_finished : List Nat
  rng : Nat

/-- The phase-2 loop body (simulation.cpp lines 82-107): draw a seed, run
`act` for the agent, and route the id into `keep_active` when the result is
`true` and into `to_finished` otherwise. -/
def phase2Step (agents : List AgentSpec) (t0 : Nat) (win : Option Nat)
    (st : Phase2Acc) (id : Nat) : Phase2Acc :=
  let dr := rngNext st.rng
  let rb := actAgent (getAgent agents id) id t0 win
    ⟨st.data, st.bids, st.accepted⟩ dr.1
  { data := rb.2.data, bids := rb.2.bids, accepted := rb.2.accepted,
    keep_active := if rb.1 then st.keep_active ++ [id] else st.keep_active,
    to_finished := if rb.1 then st.to_finished else st.to_finished ++ [id],
    rng := dr.2 }

/-- Phase 2 (simulation.cpp lines 80-107): the loop body over each active
agent in roster order. -/
def phase2 (agents : List AgentSpec) (t0 : Nat) (win : Option Nat)
    (active : List Nat) (d : Data) (rng : Nat) : Phase2Acc :=
  active.foldl (phase2Step agents t0 win) ⟨d, [], [], [], [], rng⟩

/-- Ways a tick aborts: `std::get<onsale>` throwing (or `agents[...]` indexed
with `no_owner`) in the settlement loop, and `pop_front` on an empty deque in
phase 6 (undefined behaviour in the C++). -/
inductive TickError where
  | settleError : TickError
  | popFrontEmpty : TickError
deriving DecidableEq, Repr

/-- Phase 3, the settlement loop (simulation.cpp lines 109-120): for each
recorded key, read the entry (`std::get<onsale>`), emit the trade record if
the trade callback is configured, notify the buyer, notify the seller when
there is one, and write back `used{highest_bidder}`. -/
def settleAll (t0 : Nat) (win : Option Nat) (cb : Bool) :
    List Key → Data → List Event → Except TickError (Data × List Event)
  | [], d, evs => .ok (d, evs)
  | k :: rest, d, evs =>
    match bookRead t0 win d k.1 k.2 with
    | none => .error .settleError
    | some (e, d1) =>
      match e with
      | .onsale o _ hb hv =>
        match hb with
        | some buyer =>
          settleAll t0 win cb rest
            (dataSet (k.2 - t0) d1 (k.1, k.2) (.used (some buyer)))
            (evs ++ (if cb then [Event.trade t0 o buyer k.1 k.2 hv] else [])
                 ++ [Event.bought buyer k.1 k.2 hv]
                 ++ (match o with
                     | some seller => [Event.sold seller k.1 k.2 hv]
                     | none => []))
        | none => .error .settleError
      | _ => .error .settleError

/-- The ask callback handed to `after_auction` (simulation.cpp lines
127-138). -/
def askCb (id t0 : Nat) (win : Option Nat)
    (st : Data × List (Nat × Nat × Nat × Nat)) (s t v : Nat) :
    Bool × (Data × List (Nat × Nat × Nat × Nat)) :=
  if t < t0 then (false, st)
  else
    match bookRead t0 win st.1 s t with
    | none => (false, st)
    | some (e, d) =>
      match e with
      | .out_of_limits => (false, (d, st.2))
      | .onsale _ _ _ _ => (false, (d, st.2))
      | .used o =>
        if o = some id then (true, (d, st.2 ++ [(s, t, id, v)]))
        else (false, (d, st.2))

/-- State threaded through the phase-4 loop over `active`. -/
structure Phase4Acc where
  data : Data
  asks : List (Nat × Nat × Nat × Nat)
  rng : Nat

/-- The phase-4 loop body: draw a seed and play the agent's scripted ask
submissions. -/
def phase4Step (agents : List AgentSpec) (t0 : Nat) (win : Option Nat)
    (st : Phase4Acc) (id : Nat) : Phase4Acc :=
  let dr := rngNext st.rng
  let st2 := ((getAgent agents id).asks t0 dr.1).foldl
    (fun p sub => (askCb id t0 win p sub.1 sub.2.1 sub.2.2).2)
    (st.data, st.asks)
  ⟨st2.1, st2.2, dr.2⟩

/-- Phase 4, the ask loop (simulation.cpp lines 123-140). -/
def phase4 (agents : List AgentSpec) (t0 : Nat) (win : Option Nat)
    (active : List Nat) (d : Data) (rng : Nat) : Phase4Acc :=
  active.foldl (phase4Step agents t0 win) ⟨d, [], rng⟩

/-- Apply the recorded asks (simulation.cpp lines 142-143):
`book(s, t) = onsale{ .owner = id, .min_value = v }`.  Modelled from the
spec for the value-initialized members: `highest_bidder = no_owner`,
`highest_bid = 0`.  Every recorded ask has `t ≥ t0`, so the `getD` fallback
is never taken. -/
def applyAsks (t0 : Nat) (win : Option Nat)
    (asks : List (Nat × Nat × Nat × Nat)) (d : Data) : Data :=
  asks.foldl
    (fun d a =>
      (bookWrite t0 win d a.1 a.2.1 (.onsale (some a.2.2.1) a.2.2.2 none 0)).getD d)
    d

/-- Phase 0: the configured status callback receives a read-only view backed
by `book`; its scripted queries are played against the ledger (each query
materializes like any `book` access).  A query violating the `t ≥ t0`
precondition is skipped here. -/
def runStatusCb (t0 : Nat) (win : Option Nat) (qs : List (Nat × Nat))
    (d : Data) : Data :=
  qs.foldl
    (fun d q =>
      match bookRead t0 win d q.1 q.2 with
      | none => d
      | some (_, d1) => d1)
    d

/-- The driver state across ticks. -/
structure SimState where
  agents : List AgentSpec
  active : List Nat
  t0 : Nat
  data : Data
  rng : Nat

/-- Phases 1-6 of one tick, given the ledger `d0` left by phase 0: ingest,
bids, settlement, asks, retirement notifications, advance (including
`data.pop_front()`). -/
def runTickCore (factory : Nat → Nat → Nat → List AgentSpec) (space : Nat)
    (opts : SimOpts) (st : SimState) (d0 : Data) :
    Except TickError (SimState × List Event) :=
  let dr := rngNext st.rng
  let newAgents := factory st.t0 space dr.1
  let agents1 := st.agents ++ newAgents
  let active1 := st.active ++ (List.range newAgents.length).map (st.agents.length + ·)
  let p2 := phase2 agents1 st.t0 opts.time_window active1 d0 dr.2
  match settleAll st.t0 opts.time_window opts.trade_callback p2.bids p2.data [] with
  | .error e => .error e
  | .ok (d3, evs3) =>
    let p4 := phase4 agents1 st.t0 opts.time_window active1 d3 p2.rng
    let d4 := applyAsks st.t0 opts.time_window p4.asks p4.data
    let evs5 := p2.to_finished.map (fun id => Event.finished id st.t0)
    match d4 with
    | [] => .error .popFrontEmpty
    | _ :: dRest =>
      .ok ({ agents := agents1, active := p2.keep_active, t0 := st.t0 + 1,
             data := dRest, rng := p4.rng },
           evs3 ++ evs5)

/-- One full tick of `simulate` (simulation.cpp lines 62-152): phase 0
telemetry (the configured status callback plays its queries against the
ledger), then phases 1-6. -/
def runTick (factory : Nat → Nat → Nat → List AgentSpec) (space : Nat)
    (opts : SimOpts) (st : SimState) : Except TickError (SimState × List Event) :=
  runTickCore factory space opts st
    (match opts.status_callback with
     | none => st.data
     | some q => runStatusCb st.t0 opts.time_window (q st.t0) st.data)

/-- The stop criterion (simulation.cpp lines 55-60), evaluated after a tick. -/
def stopCheck (opts : SimOpts) (active : List Nat) (t0 : Nat) : Bool :=
  match opts.stop_criteria with
  | .no_agents => active.isEmpty
  | .time_threshold th => decide (th < t0)

/-- The do-while loop of `simulate`, fuelled (the C++ loop need not
terminate).  Running out of fuel returns the run so far. -/
def simLoop (factory : Nat → Nat → Nat → List AgentSpec) (space : Nat)
    (opts : SimOpts) : Nat → SimState → List Event →
    Except TickError (SimState × List Event)
  | 0, st, evs => .ok (st, evs)
  | fuel + 1, st, evs =>
    match runTick factory space opts st with
    | .error e => .error e
    | .ok (st1, evs1) =>
      if stopCheck opts st1.active st1.t0 then .ok (st1, evs ++ evs1)
      else simLoop factory space opts fuel st1 (evs ++ evs1)

/-- `uat::simulate`: empty roster, `t0 = 0`, empty deque, RNG seeded. -/
def runSim (factory : Nat → Nat → Nat → List AgentSpec) (space seed : Nat)
    (opts : SimOpts) (fuel : Nat) : Except TickError (SimState × List Event) :=
  simLoop factory space opts fuel ⟨[], [], 0, [], seed⟩ []

/-- The per-agent projection table exactly as the spec states it (section
4.3), to be compared with `project`, the code's visitor. -/
def specProjection (id : Nat) (e : PrivateStatus) : SlotStatus :=
  match e with
  | .out_of_limits => .unavailable
  | .used o => if o = some id then .owned else .unavailable
  | .onsale o mv _ _ => if o = some id then .unavailable else .available mv none

/-- Keys of a list in order of first occurrence. -/
def firstOcc (l : List Key) : List Key :=
  l.foldl (fun acc k => if k ∈ acc then acc else acc ++ [k]) []

/-- The key of a trade record, if the event is one. -/
def tradeKeyOf : Event → Option Key
  | .trade _ _ _ s t _ => some (s, t)
  | _ => none

/-- The `on_sold` notification of one settlement, empty when the seller is
`no_owner` (the guard at simulation.cpp lines 116-117). -/
def soldEvents (o : Option Nat) (s t p : Nat) : List Event :=
  match o with
  | some seller => [Event.sold seller s t p]
  | none => []

/-- Whether an event is an `on_finished` notification. -/
def isFinEv : Event → Bool
  | .finished _ _ => true
  | _ => false

/-- The per-entry ledger invariant of the spec (section 3, invariant 2, and
section 8, I3): a bid above the reserve whenever there is a bidder, and a
zero bid whenever there is none. -/
def invEntry : PrivateStatus → Bool
  | .onsale _ mv hb hv =>
    match hb with
    | some _ => decide (mv ≤ hv)
    | none => decide (hv = 0)
  | _ => true

/-- A per-entry predicate holding over every stored entry of the ledger. -/
def allEntriesB (P : PrivateStatus → Bool) (d : Data) : Bool :=
  d.all (fun b => b.all (fun kv => P kv.2))

/-- The ledger invariant over every stored entry. -/
def ledgerInv (d : Data) : Bool := allEntriesB invEntry d

/-- No stored `onsale` entry carries a bidder (the state of the ledger at
every tick boundary: settlement consumes every bid-carrying entry). -/
def noBidder : PrivateStatus → Bool
  | .onsale _ _ hb _ => decide (hb = none)
  | _ => true

/-- A ledger with no pending bidder anywhere. -/
def noPending (d : Data) : Bool := allEntriesB noBidder d

theorem bucketFind_insert (b : Bucket) (k k' : Key) (v : PrivateStatus) :
    bucketFind (bucketInsert b k v) k' = if k' = k then some v else bucketFind b k' := by
  induction b with
  | nil =>
    by_cases h : k' = k
    · subst h; simp [bucketInsert, bucketFind]
    · simp [bucketInsert, bucketFind, h, Ne.symm h]
  | cons kv rest ih =>
    by_cases h : kv.1 = k
    · rw [bucketInsert, if_pos h]
      by_cases h' : k = k'
      · subst h'; simp [bucketFind, h]
      · simp [bucketFind, h, h', Ne.symm h']
    · rw [bucketInsert, if_neg h]
      by_cases h' : kv.1 = k'
      · have hk : ¬ k' = k := fun hh => h (h'.trans hh)
        simp [bucketFind, h', hk]
      · simp [bucketFind, h', ih]

theorem bucketFind_append (b b' : Bucket) (k : Key) :
    bucketFind (b ++ b') k =
      match bucketFind b k with
      | some v => some v
      | none => bucketFind b' k := by
  induction b with
  | nil => simp [bucketFind]
  | cons kv rest ih =>
    by_cases h : kv.1 = k
    · simp [bucketFind, h]
    · simp [bucketFind, h, ih]

theorem bucketEnsure_fst (b : Bucket) (k : Key) :
    (bucketEnsure b k).1 = (bucketFind b k).getD defaultStatus := by
  unfold bucketEnsure
  cases h : bucketFind b k <;> simp

theorem bucketFind_ensure_self (b : Bucket) (k : Key) :
    bucketFind (bucketEnsure b k).2 k = some (bucketEnsure b k).1 := by
  unfold bucketEnsure
  cases h : bucketFind b k with
  | some v => simpa using h
  | none => simp [bucketFind_append, h, bucketFind]

theorem bucketFind_ensure_other (b : Bucket) (k k' : Key) (h : k' ≠ k) :
    bucketFind (bucketEnsure b k).2 k' = bucketFind b k' := by
  unfold bucketEnsure
  cases hf : bucketFind b k with
  | some v => simp
  | none =>
    simp only [bucketFind_append]
    cases hf' : bucketFind b k' with
    | some v => simp
    | none => simp [bucketFind, Ne.symm h]

theorem bucketAll_insert (P : PrivateStatus → Bool) (b : Bucket) (k : Key)
    (v : PrivateStatus) (hb : b.all (fun kv => P kv.2) = true) (hv : P v = true) :
    (bucketInsert b k v).all (fun kv => P kv.2) = true := by
  induction b with
  | nil => simp [bucketInsert, hv]
  | cons kv rest ih =>
    simp only [List.all_cons, Bool.and_eq_true] at hb
    by_cases h : kv.1 = k
    · simp [bucketInsert, h, hv, hb.2]
    · simp only [bucketInsert, if_neg h, List.all_cons, Bool.and_eq_true]
      exact ⟨hb.1, ih hb.2⟩

theorem bucketAll_ensure (P : PrivateStatus → Bool) (b : Bucket) (k : Key)
    (hb : b.all (fun kv => P kv.2) = true) (hd : P defaultStatus = true) :
    (bucketEnsure b k).2.all (fun kv => P kv.2) = true := by
  unfold bucketEnsure
  cases h : bucketFind b k with
  | some v => exact hb
  | none => simp [List.all_append, hb, hd]

theorem bucketAll_find (P : PrivateStatus → Bool) (b : Bucket) (k : Key)
    (v : PrivateStatus) (hb : b.all (fun kv => P kv.2) = true)
    (h : bucketFind b k = some v) : P v = true := by
  induction b with
  | nil => exact absurd h (by simp [bucketFind])
  | cons kv rest ih =>
    simp only [List.all_cons, Bool.and_eq_true] at hb
    by_cases hh : kv.1 = k
    · unfold bucketFind at h
      rw [if_pos hh] at h
      cases h
      exact hb.1
    · unfold bucketFind at h
      rw [if_neg hh] at h
      exact ih hb.2 h

theorem getD_set (d : Data) (i j : Nat) (b : Bucket) :
    (d.set i b).getD j [] = if i = j ∧ i < d.length then b else d.getD j [] := by
  induction d generalizing i j with
  | nil => simp [List.set]
  | cons x xs ih =>
    cases i with
    | zero =>
      cases j with
      | zero => simp
      | succ j' => simp
    | succ i' =>
      cases j with
      | zero => simp
      | succ j' =>
        simp only [List.set, List.getD_cons_succ, List.length_cons, ih]
        by_cases h : i' = j' ∧ i' < xs.length
        · rw [if_pos h, if_pos ⟨by omega, by omega⟩]
        · rw [if_neg h, if_neg (by omega)]

theorem getD_append_replicate (l : Data) (m j : Nat) :
    (l ++ List.replicate m ([] : Bucket)).getD j [] = l.getD j [] := by
  induction l generalizing j with
  | nil =>
    simp only [List.nil_append, List.getD_nil]
    induction m generalizing j with
    | zero => simp
    | succ m' ihm =>
      cases j with
      | zero => simp [List.replicate]
      | succ j' => simp [List.replicate, ihm]
  | cons x xs ih =>
    cases j with
    | zero => rfl
    | succ j' => simpa using ih j'

theorem extendTo_len (d : Data) (n : Nat) : n < (extendTo d n).length := by
  unfold extendTo
  rw [List.length_append, List.length_replicate]
  omega

theorem peek_extendTo (t0 : Nat) (d : Data) (n s t : Nat) :
    peek t0 (extendTo d n) s t = peek t0 d s t := by
  unfold peek extendTo
  rw [getD_append_replicate]

theorem allEntriesB_cons (P : PrivateStatus → Bool) (x : Bucket) (xs : Data) :
    allEntriesB P (x :: xs) = ((x.all (fun kv => P kv.2)) && allEntriesB P xs) := rfl

theorem allEntriesB_extendTo (P : PrivateStatus → Bool) (d : Data) (n : Nat)
    (h : allEntriesB P d = true) : allEntriesB P (extendTo d n) = true := by
  have h2 : (List.replicate (n + 1 - d.length) ([] : Bucket)).all
      (fun b => b.all (fun kv => P kv.2)) = true :=
    List.all_eq_true.mpr (fun b hb => by rw [List.eq_of_mem_replicate hb]; rfl)
  unfold allEntriesB extendTo
  unfold allEntriesB at h
  rw [List.all_append, h, h2]
  rfl

theorem allEntriesB_getD (P : PrivateStatus → Bool) (d : Data) (i : Nat)
    (h : allEntriesB P d = true) : (d.getD i []).all (fun kv => P kv.2) = true := by
  induction d generalizing i with
  | nil => simp
  | cons x xs ih =>
    rw [allEntriesB_cons, Bool.and_eq_true] at h
    cases i with
    | zero => exact h.1
    | succ i' => exact ih i' h.2

theorem allEntriesB_set (P : PrivateStatus → Bool) (d : Data) (i : Nat) (b : Bucket)
    (h : allEntriesB P d = true) (hb : b.all (fun kv => P kv.2) = true) :
    allEntriesB P (d.set i b) = true := by
  induction d generalizing i with
  | nil => exact h
  | cons x xs ih =>
    rw [allEntriesB_cons, Bool.and_eq_true] at h
    cases i with
    | zero =>
      show allEntriesB P (b :: xs) = true
      rw [allEntriesB_cons, hb, h.2]
      rfl
    | succ i' =>
      show allEntriesB P (x :: xs.set i' b) = true
      rw [allEntriesB_cons, h.1, ih i' h.2]
      rfl

theorem allEntriesB_dataSet (P : PrivateStatus → Bool) (d : Data) (i : Nat)
    (k : Key) (v : PrivateStatus) (h : allEntriesB P d = true) (hv : P v = true) :
    allEntriesB P (dataSet i d k v) = true := by
  unfold dataSet
  exact allEntriesB_set P d i _ h
    (bucketAll_insert P _ k v (allEntriesB_getD P d i h) hv)

/-- The `book` lambda never fails on an in-window access with `t ≥ t0`: it
returns the stored entry (materializing the default), the materialized key is
subsequently visible, no other key changes, the touched bucket index exists,
and any per-entry predicate enjoyed by the ledger and by the default value is
preserved. -/
theorem bookRead_inWindow (t0 t : Nat) (win : Option Nat) (d : Data) (s : Nat)
    (h1 : t0 ≤ t) (h2 : outOfWindow t0 win t = false) :
    ∃ d1, bookRead t0 win d s t = some ((peek t0 d s t).getD defaultStatus, d1) ∧
      peek t0 d1 s t = some ((peek t0 d s t).getD defaultStatus) ∧
      (∀ s2 t2, t0 ≤ t2 → ¬(s2 = s ∧ t2 = t) → peek t0 d1 s2 t2 = peek t0 d s2 t2) ∧
      t - t0 < d1.length ∧
      (∀ P : PrivateStatus → Bool, allEntriesB P d = true → P defaultStatus = true →
        allEntriesB P d1 = true) := by
  have hnlt : ¬ t < t0 := by omega
  have hb : bucketFind ((extendTo d (t - t0)).getD (t - t0) []) (s, t)
      = peek t0 d s t := peek_extendTo t0 d (t - t0) s t
  refine ⟨(extendTo d (t - t0)).set (t - t0)
    (bucketEnsure ((extendTo d (t - t0)).getD (t - t0) []) (s, t)).2, ?_, ?_, ?_, ?_, ?_⟩
  · unfold bookRead
    rw [if_neg hnlt, if_neg (by simp [h2]), bucketEnsure_fst, hb]
  · unfold peek
    rw [getD_set, if_pos ⟨rfl, extendTo_len d (t - t0)⟩,
      bucketFind_ensure_self, bucketEnsure_fst, hb]
    rfl
  · intro s2 t2 ht2 hne
    by_cases hteq : t2 = t
    · subst hteq
      have hs2 : s2 ≠ s := fun hh => hne ⟨hh, rfl⟩
      have hne2 : ((s2, t2) : Key) ≠ (s, t2) := by simp [hs2]
      unfold peek
      rw [getD_set, if_pos ⟨rfl, extendTo_len d (t2 - t0)⟩,
        bucketFind_ensure_other _ _ _ hne2]
      exact peek_extendTo t0 d (t2 - t0) s2 t2
    · have hidx : ¬ (t - t0 = t2 - t0) := by omega
      unfold peek
      rw [getD_set, if_neg (fun hc => hidx hc.1)]
      exact peek_extendTo t0 d (t - t0) s2 t2
  · rw [List.length_set]
    exact extendTo_len d (t - t0)
  · intro P hP hPd
    refine allEntriesB_set P _ _ _ (allEntriesB_extendTo P d _ hP) ?_
    exact bucketAll_ensure P _ _ (allEntriesB_getD P _ _ (allEntriesB_extendTo P d _ hP)) hPd

/-- `book` as a read fails exactly on a past-time access. -/
theorem bookRead_eq_none_iff (t0 t : Nat) (win : Option Nat) (d : Data) (s : Nat) :
    bookRead t0 win d s t = none ↔ t < t0 := by
  unfold bookRead
  by_cases h : t < t0
  · simp [h]
  · by_cases h2 : outOfWindow t0 win t <;> simp [h, h2]

/-- C1: the phase-2 bid callback is claimed to return `true` iff the bid
strictly beats both `min_value` and `highest_bid`, and in particular to
return `false` for a bid exactly at `min_value`.  The code does not: the
`onsale` visitor (simulation.cpp lines 89-99) returns `true` unconditionally
and only skips the mutation.  Here a bid of exactly `min_value = 5` on an
in-window `onsale` entry returns `true` while leaving the entry, the
`pending_bids` list and the accepted list unchanged — contradicting the
claim, spec item B1 and the `agent.hpp` contract that `bid` "returns true if
the bidding was successful, and false otherwise". -/
theorem bid_true_without_acceptance :
    bidCb 7 0 none ⟨[[((0, 0), PrivateStatus.onsale none 5 none 0)]], [], []⟩ 0 0 5
      = (true, ⟨[[((0, 0), PrivateStatus.onsale none 5 none 0)]], [], []⟩) := rfl

/-- C5: the status callback is claimed to hand out, inside every `Available`
result, a lazy `trades` accessor yielding the accumulated trade history of
the key.  The code (simulation.cpp line 50) constructs
`available{status.min_value}`, leaving the `trades` member a
default-constructed empty `std::function` (modelled `none`), and
`simulate` accumulates no per-key history anywhere: querying a listed permit
returns `available` with no history accessor. -/
theorem available_trades_unwired :
    publicAccess 1 0 none [[((0, 0), PrivateStatus.onsale (some 0) 5 none 0)]] 0 0
      = some (SlotStatus.available 5 none,
              [[((0, 0), PrivateStatus.onsale (some 0) 5 none 0)]]) := rfl

/-- C10: on a tick with no ledger access at all — a factory returning no
agents and no status callback configured — the per-tick deque is still empty
when phase 6 executes `data.pop_front()`, so the simulation run hits the
empty-deque case (undefined behaviour in the C++), contradicting the claim
that the deque is non-empty on every tick. -/
theorem pop_front_empty_deque_bug :
    runSim (fun _ _ _ => []) 0 0 ⟨none, .no_agents, none, false⟩ 1
      = .error .popFrontEmpty := rfl

/-- C3 (counterexample): the claim states that the ledger lookup is total
and that `t < t0` yields the shared `out_of_limits` sentinel.  The code
instead guards `book` with `assert(t >= t0)`: at `t0 = 1`, `t = 0` the
lookup does not return the sentinel (or anything) — it fails the assertion
(and underflows `t - t0` with assertions disabled). -/
theorem book_past_time_fails : bookRead 1 none [] 0 0 = none := rfl

/-- C9: `simulate` is deterministic — two runs given the same factory, the
same airspace, the same seed, the same options and the same fuel produce
identical traces, notifications and final ledger state.  (The embedding is
deterministic by construction, mirroring the single-threaded driver whose
sole randomness source is the master RNG derived from the seed.) -/
theorem simulate_deterministic (f1 f2 : Nat → Nat → Nat → List AgentSpec)
    (sp1 sp2 s1 s2 n1 n2 : Nat) (o1 o2 : SimOpts)
    (hf : f1 = f2) (hsp : sp1 = sp2) (hs : s1 = s2) (ho : o1 = o2) (hn : n1 = n2) :
    runSim f1 sp1 s1 o1 n1 = runSim f2 sp2 s2 o2 n2 := by
  subst hf; subst hsp; subst hs; subst ho; subst hn; rfl

/-- Witness for `simulate_deterministic` at a concrete input. -/
theorem simulate_deterministic_w :
    runSim (fun _ _ _ => []) 0 3 ⟨none, .time_threshold 0, none, true⟩ 1
      = runSim (fun _ _ _ => []) 0 3 ⟨none, .time_threshold 0, none, true⟩ 1 :=
  simulate_deterministic _ _ 0 0 3 3 1 1 _ _ rfl rfl rfl rfl rfl

/-- C3 (amended): for `t ≥ t0` — the precondition `book` asserts — the
lookup is total: an out-of-window access returns the shared `out_of_limits`
sentinel and leaves the deque untouched, and an in-window access returns the
stored entry, materializing the default
`onsale { owner: no_owner, min_value: 0, highest_bidder: no_owner, highest_bid: 0 }`
for an absent key (the materialized entry is then stored, other keys are
undisturbed).  The claim's further assertion that `t < t0` also yields the
sentinel is false — the code asserts `t >= t0` instead; see
`book_past_time_fails`. -/
theorem book_lookup_total_amended (t0 t s : Nat) (win : Option Nat) (d : Data)
    (h : t0 ≤ t) :
    (outOfWindow t0 win t = true →
      bookRead t0 win d s t = some (.out_of_limits, d)) ∧
    (outOfWindow t0 win t = false →
      ∃ d1, bookRead t0 win d s t = some ((peek t0 d s t).getD defaultStatus, d1) ∧
        peek t0 d1 s t = some ((peek t0 d s t).getD defaultStatus) ∧
        ∀ s2 t2, t0 ≤ t2 → ¬(s2 = s ∧ t2 = t) →
          peek t0 d1 s2 t2 = peek t0 d s2 t2) := by
  constructor
  · intro hw
    unfold bookRead
    rw [if_neg (by omega), if_pos (by simp [hw])]
  · intro hw
    obtain ⟨d1, e1, e2, e3, _, _⟩ := bookRead_inWindow t0 t win d s h hw
    exact ⟨d1, e1, e2, e3⟩

/-- Witness for `book_lookup_total_amended`: with window `W = 1` and
`t0 = 0`, the access at `t = 2` yields the sentinel. -/
theorem book_lookup_total_amended_w :
    bookRead 0 (some 1) [] 5 2 = some (PrivateStatus.out_of_limits, []) :=
  (book_lookup_total_amended 0 2 5 (some 1) [] (by decide)).1 (by decide)

/-- C4: the status callback returns exactly the per-agent projection of
whatever entry the ledger lookup produced, where the projection is the
spec's table: `out_of_limits` maps to `Unavailable`; `used{v}` maps to
`Owned` iff the viewer is `v` and `Unavailable` otherwise; `onsale{v, mv}`
maps to `Unavailable` iff the viewer is `v` and `Available{mv}` otherwise.
The code's visitor `project` agrees with the spec table on every entry. -/
theorem status_projection (id t0 s t : Nat) (win : Option Nat) (d d1 : Data)
    (e : PrivateStatus) (h : bookRead t0 win d s t = some (e, d1)) :
    publicAccess id t0 win d s t = some (specProjection id e, d1) ∧
    (∀ e2, specProjection id e2 = project id e2) := by
  have hsp : ∀ e2, specProjection id e2 = project id e2 := by
    intro e2; cases e2 <;> rfl
  refine ⟨?_, hsp⟩
  unfold publicAccess
  rw [h, hsp e]
  rfl

/-- Witness for `status_projection`: a fresh key viewed by agent 0 is
projected from the materialized default entry. -/
theorem status_projection_w :
    publicAccess 0 0 none [] 0 0
      = some (specProjection 0 defaultStatus, [[((0, 0), defaultStatus)]]) ∧
    (∀ e2, specProjection 0 e2 = project 0 e2) :=
  status_projection 0 0 0 0 none [] [[((0, 0), defaultStatus)]] defaultStatus rfl

theorem phase2_go (agents : List AgentSpec) (t0 : Nat) (win : Option Nat) :
    ∀ (active : List Nat) (st : Phase2Acc),
    (active.foldl (phase2Step agents t0 win) st).to_finished
      = st.to_finished ++ ((active.zip (seedsFrom st.rng active.length)).filter
          (fun p => (getAgent agents p.1).stop t0 p.2)).map Prod.fst ∧
    (active.foldl (phase2Step agents t0 win) st).keep_active
      = st.keep_active ++ ((active.zip (seedsFrom st.rng active.length)).filter
          (fun p => !((getAgent agents p.1).stop t0 p.2))).map Prod.fst := by
  intro active
  induction active with
  | nil => intro st; simp [seedsFrom]
  | cons id rest ih =>
    intro st
    rw [List.foldl_cons]
    obtain ⟨ihf, ihk⟩ := ih (phase2Step agents t0 win st id)
    have hrng : (phase2Step agents t0 win st id).rng = (rngNext st.rng).2 := rfl
    constructor
    · rw [ihf, hrng]
      simp only [List.length_cons, seedsFrom, List.zip_cons_cons, List.filter_cons]
      by_cases hstop : (getAgent agents id).stop t0 (rngNext st.rng).1
      · simp [phase2Step, actAgent, hstop]
      · simp [phase2Step, actAgent, hstop]
    · rw [ihk, hrng]
      simp only [List.length_cons, seedsFrom, List.zip_cons_cons, List.filter_cons]
      by_cases hstop : (getAgent agents id).stop t0 (rngNext st.rng).1
      · simp [phase2Step, actAgent, hstop]
      · simp [phase2Step, actAgent, hstop]

/-- C2: in phase 2 the driver processes the active agents in roster order,
drawing one seed per agent; after the agent's bid-phase behaviour runs, its
`stop(t0, seed)` answer alone routes the id: `to_finished` collects, in
order, exactly the active agents whose `stop` returned `true`, and
`keep_active` (the next tick's `active`) exactly those whose `stop`
returned `false`. -/
theorem phase2_stop_routing (agents : List AgentSpec) (t0 : Nat)
    (win : Option Nat) (active : List Nat) (d : Data) (rng : Nat) :
    (phase2 agents t0 win active d rng).to_finished
      = ((active.zip (seedsFrom rng active.length)).filter
          (fun p => (getAgent agents p.1).stop t0 p.2)).map Prod.fst ∧
    (phase2 agents t0 win active d rng).keep_active
      = ((active.zip (seedsFrom rng active.length)).filter
          (fun p => !((getAgent agents p.1).stop t0 p.2))).map Prod.fst := by
  have := phase2_go agents t0 win active ⟨d, [], [], [], [], rng⟩
  simpa [phase2] using this

theorem allEntriesB_bookRead (P : PrivateStatus → Bool) (t0 t s : Nat)
    (win : Option Nat) (d d1 : Data) (e : PrivateStatus)
    (h : bookRead t0 win d s t = some (e, d1))
    (hd : allEntriesB P d = true) (hP : P defaultStatus = true) :
    allEntriesB P d1 = true := by
  unfold bookRead at h
  by_cases h1 : t < t0
  · rw [if_pos h1] at h
    exact absurd h (by simp)
  · rw [if_neg h1] at h
    by_cases h2 : outOfWindow t0 win t = true
    · rw [if_pos (by simp [h2])] at h
      simp only [Option.some.injEq, Prod.mk.injEq] at h
      rw [← h.2]
      exact hd
    · rw [if_neg (by simp [h2])] at h
      simp only [Option.some.injEq, Prod.mk.injEq] at h
      rw [← h.2]
      refine allEntriesB_set P _ _ _ (allEntriesB_extendTo P d _ hd) ?_
      exact bucketAll_ensure P _ _
        (allEntriesB_getD P _ _ (allEntriesB_extendTo P d _ hd)) hP

theorem allEntriesB_bidCb (id t0 : Nat) (win : Option Nat) (acc : BidAcc)
    (s t v : Nat) (hd : allEntriesB invEntry acc.data = true) :
    allEntriesB invEntry (bidCb id t0 win acc s t v).2.data = true := by
  unfold bidCb
  by_cases h1 : t < t0
  · rw [if_pos h1]; exact hd
  · rw [if_neg h1]
    cases hbr : bookRead t0 win acc.data s t with
    | none => exact hd
    | some ed =>
      obtain ⟨e, d⟩ := ed
      dsimp only
      have hd1 : allEntriesB invEntry d = true :=
        allEntriesB_bookRead invEntry t0 t s win acc.data d e hbr hd rfl
      cases e with
      | out_of_limits => exact hd1
      | used o => exact hd1
      | onsale o mv hb hv =>
        dsimp only
        by_cases hacc : mv < v ∧ hv < v
        · rw [if_pos hacc]
          refine allEntriesB_dataSet invEntry d (t - t0) (s, t) _ hd1 ?_
          simp only [invEntry, decide_eq_true_eq]
          omega
        · rw [if_neg hacc]; exact hd1

theorem allEntriesB_runAgentBids (id t0 : Nat) (win : Option Nat) :
    ∀ (subs : List (Nat × Nat × Nat)) (acc : BidAcc),
    allEntriesB invEntry acc.data = true →
    allEntriesB invEntry (runAgentBids id t0 win acc subs).data = true := by
  intro subs
  induction subs with
  | nil => intro acc h; exact h
  | cons sub rest ih =>
    intro acc h
    unfold runAgentBids
    rw [List.foldl_cons]
    exact ih _ (allEntriesB_bidCb id t0 win acc sub.1 sub.2.1 sub.2.2 h)

theorem allEntriesB_phase2_go (agents : List AgentSpec) (t0 : Nat)
    (win : Option Nat) :
    ∀ (active : List Nat) (st : Phase2Acc),
    allEntriesB invEntry st.data = true →
    allEntriesB invEntry (active.foldl (phase2Step agents t0 win) st).data = true := by
  intro active
  induction active with
  | nil => intro st h; exact h
  | cons id rest ih =>
    intro st h
    rw [List.foldl_cons]
    exact ih _ (allEntriesB_runAgentBids id t0 win _ _ h)

theorem allEntriesB_settleAll (t0 : Nat) (win : Option Nat) (cb : Bool) :
    ∀ (bids : List Key) (d : Data) (evs : List Event) (d1 : Data)
      (evs1 : List Event),
    allEntriesB invEntry d = true →
    settleAll t0 win cb bids d evs = .ok (d1, evs1) →
    allEntriesB invEntry d1 = true := by
  intro bids
  induction bids with
  | nil =>
    intro d evs d1 evs1 h hok
    unfold settleAll at hok
    simp only [Except.ok.injEq, Prod.mk.injEq] at hok
    rw [← hok.1]
    exact h
  | cons k rest ih =>
    intro d evs d1 evs1 h hok
    unfold settleAll at hok
    split at hok
    · simp at hok
    · rename_i e dm heq
      have hdm : allEntriesB invEntry dm = true :=
        allEntriesB_bookRead invEntry t0 k.2 k.1 win d dm e heq h rfl
      split at hok
      · rename_i o mv hb hv
        split at hok
        · rename_i buyer
          exact ih _ _ _ _
            (allEntriesB_dataSet invEntry dm (k.2 - t0) (k.1, k.2)
              (PrivateStatus.used (some buyer)) hdm rfl) hok
        · simp at hok
      · simp at hok

theorem allEntriesB_askCb (id t0 : Nat) (win : Option Nat)
    (st : Data × List (Nat × Nat × Nat × Nat)) (s t v : Nat)
    (h : allEntriesB invEntry st.1 = true) :
    allEntriesB invEntry (askCb id t0 win st s t v).2.1 = true := by
  unfold askCb
  by_cases h1 : t < t0
  · rw [if_pos h1]; exact h
  · rw [if_neg h1]
    cases hbr : bookRead t0 win st.1 s t with
    | none => exact h
    | some ed =>
      obtain ⟨e, d⟩ := ed
      dsimp only
      have hd := allEntriesB_bookRead invEntry t0 t s win st.1 d e hbr h rfl
      cases e with
      | out_of_limits => exact hd
      | onsale o mv hb hv => exact hd
      | used o =>
        dsimp only
        by_cases ho : o = some id
        · rw [if_pos ho]; exact hd
        · rw [if_neg ho]; exact hd

theorem allEntriesB_phase4_go (agents : List AgentSpec) (t0 : Nat)
    (win : Option Nat) :
    ∀ (active : List Nat) (st : Phase4Acc),
    allEntriesB invEntry st.data = true →
    allEntriesB invEntry (active.foldl (phase4Step agents t0 win) st).data = true := by
  have inner : ∀ (id : Nat) (subs : List (Nat × Nat × Nat))
      (p : Data × List (Nat × Nat × Nat × Nat)),
      allEntriesB invEntry p.1 = true →
      allEntriesB invEntry
        (subs.foldl (fun p sub => (askCb id t0 win p sub.1 sub.2.1 sub.2.2).2) p).1
        = true := by
    intro id subs
    induction subs with
    | nil => intro p h; exact h
    | cons sub rest ih =>
      intro p h
      rw [List.foldl_cons]
      exact ih _ (allEntriesB_askCb id t0 win p sub.1 sub.2.1 sub.2.2 h)
  intro active
  induction active with
  | nil => intro st h; exact h
  | cons id rest ih =>
    intro st h
    rw [List.foldl_cons]
    exact ih _ (inner id _ _ h)

theorem allEntriesB_bookWrite_getD (t0 : Nat) (win : Option Nat) (d : Data)
    (s t : Nat) (v : PrivateStatus) (h : allEntriesB invEntry d = true)
    (hv : invEntry v = true) :
    allEntriesB invEntry ((bookWrite t0 win d s t v).getD d) = true := by
  unfold bookWrite
  by_cases h1 : t < t0
  · rw [if_pos h1]; exact h
  · rw [if_neg h1]
    by_cases h2 : outOfWindow t0 win t = true
    · rw [if_pos (by simp [h2])]; exact h
    · rw [if_neg (by simp [h2])]
      exact allEntriesB_dataSet invEntry _ _ _ _ (allEntriesB_extendTo invEntry d _ h) hv

theorem allEntriesB_applyAsks (t0 : Nat) (win : Option Nat) :
    ∀ (asks : List (Nat × Nat × Nat × Nat)) (d : Data),
    allEntriesB invEntry d = true →
    allEntriesB invEntry (applyAsks t0 win asks d) = true := by
  intro asks
  induction asks with
  | nil => intro d h; exact h
  | cons a rest ih =>
    intro d h
    unfold applyAsks
    rw [List.foldl_cons]
    exact ih _ (allEntriesB_bookWrite_getD t0 win d a.1 a.2.1 _ h rfl)

theorem allEntriesB_runStatusCb (t0 : Nat) (win : Option Nat) :
    ∀ (qs : List (Nat × Nat)) (d : Data),
    allEntriesB invEntry d = true →
    allEntriesB invEntry (runStatusCb t0 win qs d) = true := by
  intro qs
  induction qs with
  | nil => intro d h; exact h
  | cons q rest ih =>
    intro d h
    unfold runStatusCb
    rw [List.foldl_cons]
    cases hbr : bookRead t0 win d q.1 q.2 with
    | none => exact ih _ h
    | some ed =>
      obtain ⟨e, d1⟩ := ed
      exact ih _ (allEntriesB_bookRead invEntry t0 q.2 q.1 win d d1 e hbr h rfl)

/-- C6: every operation of a tick preserves the `onsale` entry invariant —
`highest_bidder ≠ no_owner → highest_bid ≥ min_value` and
`highest_bidder = no_owner → highest_bid = 0` — so any tick run from a
ledger satisfying it (in particular every reachable tick, since the initial
ledger is empty) ends, and crosses every phase boundary, with a ledger
satisfying it: materialized defaults satisfy it, accepted bids write
`highest_bid = v > min_value` with a real bidder, settlement writes `used`,
and ask write-backs carry `no_owner`/`0`. -/
theorem allEntriesB_phase2 (agents : List AgentSpec) (t0 : Nat)
    (win : Option Nat) (active : List Nat) (d : Data) (rng : Nat)
    (h : allEntriesB invEntry d = true) :
    allEntriesB invEntry (phase2 agents t0 win active d rng).data = true :=
  allEntriesB_phase2_go agents t0 win active ⟨d, [], [], [], [], rng⟩ h

theorem allEntriesB_phase4 (agents : List AgentSpec) (t0 : Nat)
    (win : Option Nat) (active : List Nat) (d : Data) (rng : Nat)
    (h : allEntriesB invEntry d = true) :
    allEntriesB invEntry (phase4 agents t0 win active d rng).data = true :=
  allEntriesB_phase4_go agents t0 win active ⟨d, [], rng⟩ h

theorem ledger_inv_core (f : Nat → Nat → Nat → List AgentSpec) (sp : Nat)
    (opts : SimOpts) (st : SimState) (d0 : Data) (st' : SimState)
    (evs : List Event) (hD0 : allEntriesB invEntry d0 = true)
    (hok : runTickCore f sp opts st d0 = .ok (st', evs)) :
    allEntriesB invEntry st'.data = true := by
  simp only [runTickCore] at hok
  split at hok
  · exact absurd hok (by simp)
  · rename_i d3 evs3 heq3
    have h3 : allEntriesB invEntry d3 = true :=
      allEntriesB_settleAll st.t0 opts.time_window opts.trade_callback _ _ _ _ _
        (allEntriesB_phase2 _ _ _ _ _ _ hD0) heq3
    split at hok
    · exact absurd hok (by simp)
    · rename_i b dRest heq4
      have h5 : allEntriesB invEntry (b :: dRest) = true := by
        rw [← heq4]
        exact allEntriesB_applyAsks _ _ _ _ (allEntriesB_phase4 _ _ _ _ _ _ h3)
      rw [allEntriesB_cons, Bool.and_eq_true] at h5
      simp only [Except.ok.injEq, Prod.mk.injEq] at hok
      rw [← hok.1]
      exact h5.2

theorem ledger_inv_preserved (f : Nat → Nat → Nat → List AgentSpec) (sp : Nat)
    (opts : SimOpts) (st st' : SimState) (evs : List Event)
    (hinv : ledgerInv st.data = true)
    (hok : runTick f sp opts st = .ok (st', evs)) :
    ledgerInv st'.data = true := by
  unfold runTick at hok
  refine ledger_inv_core f sp opts st _ st' evs ?_ hok
  cases opts.status_callback with
  | none => exact hinv
  | some q =>
    exact allEntriesB_runStatusCb st.t0 opts.time_window (q st.t0) st.data hinv

/-- Scenario used by several witnesses: agent 0 has earlier listed permit
`(0, 0)` at reserve 1 and now stops immediately; agent 1 bids 5 on it and
keeps going.  The trade settles with seller 0 — an agent retired in the same
tick's phase 2. -/
def wAgent0 : AgentSpec :=
  { bids := fun _ _ => [], asks := fun _ _ => [], stop := fun _ _ => true }

def wAgent1 : AgentSpec :=
  { bids := fun _ _ => [(0, 0, 5)], asks := fun _ _ => [], stop := fun _ _ => false }

def wState : SimState :=
  ⟨[wAgent0, wAgent1], [0, 1], 0, [[((0, 0), .onsale (some 0) 1 none 0)]], 0⟩

def wOpts : SimOpts := ⟨none, .time_threshold 0, none, true⟩

def wFactory : Nat → Nat → Nat → List AgentSpec := fun _ _ _ => []

def wStateOut : SimState := ⟨[wAgent0, wAgent1], [1], 1, [], 5⟩

def wEvents : List Event :=
  [.trade 0 (some 0) 1 0 0 5, .bought 1 0 0 5, .sold 0 0 0 5, .finished 0 0]

theorem wRunTick : runTick wFactory 0 wOpts wState = .ok (wStateOut, wEvents) := rfl

/-- Witness for `ledger_inv_preserved` on the concrete scenario tick. -/
theorem ledger_inv_preserved_w : ledgerInv wStateOut.data = true :=
  ledger_inv_preserved wFactory 0 wOpts wState wStateOut wEvents (by decide) wRunTick

theorem settleAll_events (t0 : Nat) (win : Option Nat) (cb : Bool) :
    ∀ (bids : List Key) (d : Data) (evs0 : List Event) (d1 : Data)
      (evs1 : List Event),
    settleAll t0 win cb bids d evs0 = .ok (d1, evs1) →
    (∀ e ∈ evs0, isFinEv e = false) →
    (∀ tk so b2 s1 t1 p, Event.trade tk (some so) b2 s1 t1 p ∈ evs0 →
        Event.sold so s1 t1 p ∈ evs0) →
    (∀ e ∈ evs1, isFinEv e = false) ∧
    (∀ tk so b2 s1 t1 p, Event.trade tk (some so) b2 s1 t1 p ∈ evs1 →
        Event.sold so s1 t1 p ∈ evs1) := by
  intro bids
  induction bids with
  | nil =>
    intro d evs0 d1 evs1 hok h1 h2
    unfold settleAll at hok
    simp only [Except.ok.injEq, Prod.mk.injEq] at hok
    rw [← hok.2]
    exact ⟨h1, h2⟩
  | cons k rest ih =>
    intro d evs0 d1 evs1 hok h1 h2
    unfold settleAll at hok
    split at hok
    · simp at hok
    · rename_i e dm heq
      split at hok
      · rename_i o mv hb hv
        split at hok
        · rename_i buyer
          refine ih _ _ _ _ hok ?_ ?_
          · intro ev hev
            rcases List.mem_append.mp hev with hev | hev
            · rcases List.mem_append.mp hev with hev | hev
              · rcases List.mem_append.mp hev with hev | hev
                · exact h1 ev hev
                · cases cb
                  · simp at hev
                  · simp at hev
                    subst hev
                    rfl
              · simp at hev
                subst hev
                rfl
            · cases o
              · simp at hev
              · simp at hev
                subst hev
                rfl
          · intro tk so b2 s1 t1 p htr
            rcases List.mem_append.mp htr with htr | htr
            · rcases List.mem_append.mp htr with htr | htr
              · rcases List.mem_append.mp htr with htr | htr
                · exact List.mem_append.mpr (Or.inl (List.mem_append.mpr
                    (Or.inl (List.mem_append.mpr (Or.inl (h2 tk so b2 s1 t1 p htr))))))
                · cases cb
                  · simp at htr
                  · simp only [if_true, List.mem_singleton, Event.trade.injEq] at htr
                    obtain ⟨htk, hso, hb2, hs1, ht1, hp⟩ := htr
                    subst hs1
                    subst ht1
                    subst hp
                    refine List.mem_append.mpr (Or.inr ?_)
                    rw [← hso]
                    simp
              · simp at htr
            · cases o
              · simp at htr
              · simp at htr
        · simp at hok
      · simp at hok

/-- C8: in any successful tick every phase-3 settlement notification comes
before every phase-5 `on_finished` notification, every settled trade with a
real seller delivers `on_sold` to that seller — whether or not the seller was
routed to `to_finished` this tick or retired earlier — and the roster only
grows, so retired sellers remain indexable. -/
theorem sold_before_finished (f : Nat → Nat → Nat → List AgentSpec) (sp : Nat)
    (opts : SimOpts) (st st' : SimState) (evs : List Event)
    (hok : runTick f sp opts st = .ok (st', evs)) :
    st.agents.length ≤ st'.agents.length ∧
    (∃ l1 l2, evs = l1 ++ l2 ∧ (∀ e ∈ l1, isFinEv e = false) ∧
      (∀ e ∈ l2, isFinEv e = true)) ∧
    (∀ tk so b2 s1 t1 p, Event.trade tk (some so) b2 s1 t1 p ∈ evs →
      Event.sold so s1 t1 p ∈ evs) := by
  unfold runTick at hok
  simp only [runTickCore] at hok
  split at hok
  · exact absurd hok (by simp)
  · rename_i d3 evs3 heq3
    split at hok
    · exact absurd hok (by simp)
    · rename_i b dRest heq4
      simp only [Except.ok.injEq, Prod.mk.injEq] at hok
      obtain ⟨hst, hevs⟩ := hok
      have hse := settleAll_events st.t0 opts.time_window opts.trade_callback
        _ _ _ _ _ heq3 (by simp) (by simp)
      refine ⟨?_, ?_, ?_⟩
      · rw [← hst]
        simp only [List.length_append]
        omega
      · refine ⟨evs3, _, hevs.symm, hse.1, ?_⟩
        intro e he
        obtain ⟨id, _, rfl⟩ := List.mem_map.mp he
        rfl
      · intro tk so b2 s1 t1 p htr
        rw [← hevs] at htr ⊢
        rcases List.mem_append.mp htr with h | h
        · exact List.mem_append.mpr (Or.inl (hse.2 tk so b2 s1 t1 p h))
        · obtain ⟨id, _, heq⟩ := List.mem_map.mp h
          simp at heq

/-- Witness for `sold_before_finished`: in the scenario tick the seller
(agent 0) is retired in phase 2 yet still receives `on_sold`. -/
theorem sold_before_finished_w : Event.sold 0 0 0 5 ∈ wEvents :=
  (sold_before_finished wFactory 0 wOpts wState wStateOut wEvents wRunTick).2.2
    0 0 1 0 0 5 (by decide)

theorem peek_dataSet_self (t0 t s : Nat) (v : PrivateStatus) (d : Data)
    (h : t - t0 < d.length) :
    peek t0 (dataSet (t - t0) d (s, t) v) s t = some v := by
  unfold peek dataSet
  rw [getD_set, if_pos ⟨rfl, h⟩, bucketFind_insert, if_pos rfl]

theorem peek_dataSet_other (t0 t s : Nat) (v : PrivateStatus) (d : Data)
    (s2 t2 : Nat) (h1 : t0 ≤ t) (h2 : t0 ≤ t2) (hne : ¬(s2 = s ∧ t2 = t)) :
    peek t0 (dataSet (t - t0) d (s, t) v) s2 t2 = peek t0 d s2 t2 := by
  unfold peek dataSet
  by_cases hteq : t2 = t
  · subst hteq
    have hs2 : s2 ≠ s := fun hh => hne ⟨hh, rfl⟩
    rw [getD_set]
    by_cases hlen : t2 - t0 < d.length
    · rw [if_pos ⟨rfl, hlen⟩, bucketFind_insert,
        if_neg (fun hh => hs2 (congrArg Prod.fst hh))]
    · rw [if_neg (fun hc => hlen hc.2)]
  · have hidx : ¬ (t - t0 = t2 - t0) := by omega
    rw [getD_set, if_neg (fun hc => hidx hc.1)]

theorem firstOcc_append_single (l : List Key) (k : Key) :
    firstOcc (l ++ [k])
      = if k ∈ firstOcc l then firstOcc l else firstOcc l ++ [k] := by
  unfold firstOcc
  rw [List.foldl_append]
  rfl

theorem mem_foldl_firstOcc (k : Key) :
    ∀ (l : List Key) (acc : List Key),
    (k ∈ l.foldl (fun acc k => if k ∈ acc then acc else acc ++ [k]) acc)
      ↔ (k ∈ acc ∨ k ∈ l) := by
  intro l
  induction l with
  | nil => intro acc; simp
  | cons a rest ih =>
    intro acc
    rw [List.foldl_cons, ih]
    by_cases ha : a ∈ acc
    · rw [if_pos ha]
      simp only [List.mem_cons]
      constructor
      · rintro (h | h)
        · exact Or.inl h
        · exact Or.inr (Or.inr h)
      · rintro (h | h | h)
        · exact Or.inl h
        · subst h; exact Or.inl ha
        · exact Or.inr h
    · rw [if_neg ha]
      simp only [List.mem_append, List.mem_singleton, List.mem_cons]
      tauto

theorem mem_firstOcc (k : Key) (l : List Key) : k ∈ firstOcc l ↔ k ∈ l := by
  unfold firstOcc
  rw [mem_foldl_firstOcc]
  simp

theorem nodup_append_single (l : List Key) (k : Key) (h : l.Nodup)
    (hk : k ∉ l) : (l ++ [k]).Nodup := by
  induction l with
  | nil => simp
  | cons a rest ih =>
    rw [List.nodup_cons] at h
    rw [List.cons_append, List.nodup_cons]
    refine ⟨?_, ih h.2 (fun hh => hk (List.mem_cons_of_mem a hh))⟩
    intro hmem
    rcases List.mem_append.mp hmem with hmem | hmem
    · exact h.1 hmem
    · rw [List.mem_singleton] at hmem
      exact hk (by rw [hmem]; exact List.mem_cons_self k rest)

theorem firstOcc_nodup (l : List Key) : (firstOcc l).Nodup := by
  have go : ∀ (l2 acc : List Key), acc.Nodup →
      (l2.foldl (fun acc k => if k ∈ acc then acc else acc ++ [k]) acc).Nodup := by
    intro l2
    induction l2 with
    | nil => intro acc h; exact h
    | cons a rest ih =>
      intro acc h
      rw [List.foldl_cons]
      by_cases ha : a ∈ acc
      · rw [if_pos ha]; exact ih acc h
      · rw [if_neg ha]; exact ih _ (nodup_append_single acc a h ha)
  exact go l [] List.nodup_nil

theorem getD_default_cases (op : Option PrivateStatus) (e : PrivateStatus)
    (he : op.getD defaultStatus = e) :
    op = some e ∨ (op = none ∧ e = defaultStatus) := by
  cases op with
  | none => exact Or.inr ⟨rfl, he.symm⟩
  | some v => exact Or.inl (by rw [← he]; rfl)

theorem peek_of_allEntriesB (P : PrivateStatus → Bool) (t0 s t : Nat)
    (d : Data) (v : PrivateStatus) (hall : allEntriesB P d = true)
    (h : peek t0 d s t = some v) : P v = true := by
  unfold peek at h
  exact bucketAll_find P _ _ _ (allEntriesB_getD P d _ hall) h

/-- The phase-2 loop invariant: every key in `bids` is a future-time,
in-window key whose stored entry is `onsale` with a bidder; conversely every
stored `onsale` entry with a bidder (at a future time) has its key in
`bids`; and `bids` is exactly the accepted submissions' keys in order of
first acceptance. -/
def bidsInvP (t0 : Nat) (win : Option Nat) (d : Data)
    (bids accepted : List Key) : Prop :=
  (∀ k ∈ bids, t0 ≤ k.2 ∧ outOfWindow t0 win k.2 = false ∧
    ∃ o mv b hv, peek t0 d k.1 k.2 = some (.onsale o mv (some b) hv)) ∧
  (∀ s t o mv hb hv, t0 ≤ t → peek t0 d s t = some (.onsale o mv hb hv) →
    hb ≠ none → (s, t) ∈ bids) ∧
  bids = firstOcc accepted

theorem bidsInvP_init (t0 : Nat) (win : Option Nat) (d : Data)
    (h : noPending d = true) : bidsInvP t0 win d [] [] := by
  refine ⟨by simp, ?_, rfl⟩
  intro s t o mv hb hv _ hp hbne
  have := peek_of_allEntriesB noBidder t0 s t d _ h hp
  simp only [noBidder, decide_eq_true_eq] at this
  exact absurd this hbne

theorem bidsInvP_bidCb (id t0 : Nat) (win : Option Nat) (acc : BidAcc)
    (s t v : Nat) (h : bidsInvP t0 win acc.data acc.bids acc.accepted) :
    bidsInvP t0 win (bidCb id t0 win acc s t v).2.data
      (bidCb id t0 win acc s t v).2.bids
      (bidCb id t0 win acc s t v).2.accepted := by
  obtain ⟨h1, h2, h3⟩ := h
  unfold bidCb
  by_cases ht : t < t0
  · rw [if_pos ht]; exact ⟨h1, h2, h3⟩
  · rw [if_neg ht]
    have hnt : t0 ≤ t := by omega
    by_cases hw : outOfWindow t0 win t = true
    · have hbr : bookRead t0 win acc.data s t = some (.out_of_limits, acc.data) := by
        unfold bookRead
        rw [if_neg ht, if_pos (by simp [hw])]
      rw [hbr]
      exact ⟨h1, h2, h3⟩
    · rw [Bool.not_eq_true] at hw
      obtain ⟨d1, hbr, hpk1, hother, hlen, _⟩ :=
        bookRead_inWindow t0 t win acc.data s hnt hw
      rw [hbr]
      cases he : (peek t0 acc.data s t).getD defaultStatus with
      | out_of_limits =>
        dsimp only
        refine ⟨?_, ?_, h3⟩
        · intro k hk
          obtain ⟨hk1, hk2, o2, mv2, b2, hv2, hpk⟩ := h1 k hk
          by_cases hkey : k.1 = s ∧ k.2 = t
          · exfalso
            have hpkst : peek t0 acc.data s t
                = some (.onsale o2 mv2 (some b2) hv2) := by
              rw [← hkey.1, ← hkey.2]; exact hpk
            rcases getD_default_cases _ _ he with hc | hc
            · rw [hpkst] at hc; simp at hc
            · rw [hc.1] at hpkst; simp at hpkst
          · exact ⟨hk1, hk2, o2, mv2, b2, hv2,
              by rw [hother k.1 k.2 hk1 hkey]; exact hpk⟩
        · intro s2 t2 o3 mv3 hb3 hv3 ht2 hp hbne
          by_cases hkey : s2 = s ∧ t2 = t
          · exfalso
            rw [hkey.1, hkey.2, hpk1, he] at hp
            simp at hp
          · rw [hother s2 t2 ht2 hkey] at hp
            exact h2 s2 t2 o3 mv3 hb3 hv3 ht2 hp hbne
      | used o2 =>
        dsimp only
        refine ⟨?_, ?_, h3⟩
        · intro k hk
          obtain ⟨hk1, hk2, o3, mv3, b3, hv3, hpk⟩ := h1 k hk
          by_cases hkey : k.1 = s ∧ k.2 = t
          · exfalso
            have hpkst : peek t0 acc.data s t
                = some (.onsale o3 mv3 (some b3) hv3) := by
              rw [← hkey.1, ← hkey.2]; exact hpk
            rcases getD_default_cases _ _ he with hc | hc
            · rw [hpkst] at hc; simp at hc
            · rw [hc.1] at hpkst; simp at hpkst
          · exact ⟨hk1, hk2, o3, mv3, b3, hv3,
              by rw [hother k.1 k.2 hk1 hkey]; exact hpk⟩
        · intro s2 t2 o3 mv3 hb3 hv3 ht2 hp hbne
          by_cases hkey : s2 = s ∧ t2 = t
          · exfalso
            rw [hkey.1, hkey.2, hpk1, he] at hp
            simp at hp
          · rw [hother s2 t2 ht2 hkey] at hp
            exact h2 s2 t2 o3 mv3 hb3 hv3 ht2 hp hbne
      | onsale o mv hb hv =>
        dsimp only
        have hpk1' : peek t0 d1 s t = some (.onsale o mv hb hv) := by
          rw [hpk1, he]
        by_cases hacc : mv < v ∧ hv < v
        · rw [if_pos hacc]
          have hd2self :
              peek t0 (dataSet (t - t0) d1 (s, t) (.onsale o mv (some id) v)) s t
                = some (.onsale o mv (some id) v) :=
            peek_dataSet_self t0 t s _ d1 hlen
          have hd2other : ∀ s2 t2, t0 ≤ t2 → ¬(s2 = s ∧ t2 = t) →
              peek t0 (dataSet (t - t0) d1 (s, t) (.onsale o mv (some id) v)) s2 t2
                = peek t0 acc.data s2 t2 := by
            intro s2 t2 ht2 hne
            rw [peek_dataSet_other t0 t s _ d1 s2 t2 hnt ht2 hne,
              hother s2 t2 ht2 hne]
          have hstin : hb ≠ none → (s, t) ∈ acc.bids := by
            intro hhb
            have hpeekold : peek t0 acc.data s t = some (.onsale o mv hb hv) := by
              rcases getD_default_cases _ _ he with hc | hc
              · exact hc
              · exfalso
                have := hc.2
                simp only [defaultStatus, PrivateStatus.onsale.injEq] at this
                exact hhb this.2.2.1
            exact h2 s t o mv hb hv hnt hpeekold hhb
          have hstout : hb = none → (s, t) ∉ acc.bids := by
            intro hhb hin
            obtain ⟨_, _, o2, mv2, b2, hv2, hpk⟩ := h1 (s, t) hin
            have hpkst : peek t0 acc.data s t
                = some (.onsale o2 mv2 (some b2) hv2) := hpk
            rcases getD_default_cases _ _ he with hc | hc
            · rw [hpkst] at hc
              rw [hhb] at hc
              simp at hc
            · rw [hc.1] at hpkst
              simp at hpkst
          refine ⟨?_, ?_, ?_⟩
          · intro k hk
            by_cases hkey : k = (s, t)
            · subst hkey
              exact ⟨hnt, hw, o, mv, id, v, hd2self⟩
            · have hkmem : k ∈ acc.bids := by
                by_cases hhb : hb = none
                · rw [if_pos hhb] at hk
                  rcases List.mem_append.mp hk with hm | hm
                  · exact hm
                  · exact absurd (List.mem_singleton.mp hm) hkey
                · rw [if_neg hhb] at hk
                  exact hk
              obtain ⟨hk1, hk2, o2, mv2, b2, hv2, hpk⟩ := h1 k hkmem
              have hnekey : ¬(k.1 = s ∧ k.2 = t) := by
                intro hc
                exact hkey (Prod.ext hc.1 hc.2)
              exact ⟨hk1, hk2, o2, mv2, b2, hv2,
                by rw [hd2other k.1 k.2 hk1 hnekey]; exact hpk⟩
          · intro s2 t2 o3 mv3 hb3 hv3 ht2 hp hbne
            by_cases hkey : s2 = s ∧ t2 = t
            · obtain ⟨hs2, ht2'⟩ := hkey
              subst hs2
              subst ht2'
              by_cases hhb : hb = none
              · rw [if_pos hhb]
                exact List.mem_append.mpr (Or.inr (List.mem_singleton.mpr rfl))
              · rw [if_neg hhb]
                exact hstin hhb
            · rw [hd2other s2 t2 ht2 hkey] at hp
              have hmem := h2 s2 t2 o3 mv3 hb3 hv3 ht2 hp hbne
              by_cases hhb : hb = none
              · rw [if_pos hhb]
                exact List.mem_append.mpr (Or.inl hmem)
              · rw [if_neg hhb]
                exact hmem
          · rw [firstOcc_append_single, ← h3]
            by_cases hhb : hb = none
            · rw [if_pos hhb, if_neg (hstout hhb)]
            · rw [if_neg hhb, if_pos (hstin hhb)]
        · rw [if_neg hacc]
          refine ⟨?_, ?_, h3⟩
          · intro k hk
            by_cases hkey : k.1 = s ∧ k.2 = t
            · obtain ⟨hk1, hk2, o2, mv2, b2, hv2, hpk⟩ := h1 k hk
              have hpkst : peek t0 acc.data s t
                  = some (.onsale o2 mv2 (some b2) hv2) := by
                rw [← hkey.1, ← hkey.2]; exact hpk
              rcases getD_default_cases _ _ he with hc | hc
              · rw [hpkst] at hc
                simp only [Option.some.injEq, PrivateStatus.onsale.injEq] at hc
                refine ⟨hk1, hk2, o, mv, b2, hv, ?_⟩
                rw [hkey.1, hkey.2, hpk1', ← hc.2.2.1]
              · rw [hc.1] at hpkst
                simp at hpkst
            · exact
                let ⟨hk1, hk2, o2, mv2, b2, hv2, hpk⟩ := h1 k hk
                ⟨hk1, hk2, o2, mv2, b2, hv2,
                  by rw [hother k.1 k.2 hk1 hkey]; exact hpk⟩
          · intro s2 t2 o3 mv3 hb3 hv3 ht2 hp hbne
            by_cases hkey : s2 = s ∧ t2 = t
            · obtain ⟨hs2, ht2'⟩ := hkey
              subst hs2
              subst ht2'
              rw [hpk1'] at hp
              simp only [Option.some.injEq, PrivateStatus.onsale.injEq] at hp
              have hbne' : hb ≠ none := by
                rw [hp.2.2.1]
                exact hbne
              have hpeekold : peek t0 acc.data s2 t2 = some (.onsale o mv hb hv) := by
                rcases getD_default_cases _ _ he with hc | hc
                · exact hc
                · exfalso
                  have hdef := hc.2
                  simp only [defaultStatus, PrivateStatus.onsale.injEq] at hdef
                  exact hbne' hdef.2.2.1
              exact h2 s2 t2 o mv hb hv hnt hpeekold hbne'
            · rw [hother s2 t2 ht2 hkey] at hp
              exact h2 s2 t2 o3 mv3 hb3 hv3 ht2 hp hbne

theorem bidsInvP_runAgentBids (id t0 : Nat) (win : Option Nat) :
    ∀ (subs : List (Nat × Nat × Nat)) (acc : BidAcc),
    bidsInvP t0 win acc.data acc.bids acc.accepted →
    bidsInvP t0 win (runAgentBids id t0 win acc subs).data
      (runAgentBids id t0 win acc subs).bids
      (runAgentBids id t0 win acc subs).accepted := by
  intro subs
  induction subs with
  | nil => intro acc h; exact h
  | cons sub rest ih =>
    intro acc h
    unfold runAgentBids
    rw [List.foldl_cons]
    exact ih _ (bidsInvP_bidCb id t0 win acc sub.1 sub.2.1 sub.2.2 h)

theorem bidsInvP_phase2_go (agents : List AgentSpec) (t0 : Nat)
    (win : Option Nat) :
    ∀ (active : List Nat) (st : Phase2Acc),
    bidsInvP t0 win st.data st.bids st.accepted →
    bidsInvP t0 win (active.foldl (phase2Step agents t0 win) st).data
      (active.foldl (phase2Step agents t0 win) st).bids
      (active.foldl (phase2Step agents t0 win) st).accepted := by
  intro active
  induction active with
  | nil => intro st h; exact h
  | cons id rest ih =>
    intro st h
    rw [List.foldl_cons]
    exact ih _
      (bidsInvP_runAgentBids id t0 win _ ⟨st.data, st.bids, st.accepted⟩ h)

theorem settleAll_ok_of_pending (t0 : Nat) (win : Option Nat) (cb : Bool) :
    ∀ (bids : List Key) (d : Data) (evs0 : List Event),
    bids.Nodup →
    (∀ k ∈ bids, t0 ≤ k.2 ∧ outOfWindow t0 win k.2 = false ∧
      ∃ o mv b hv, peek t0 d k.1 k.2 = some (.onsale o mv (some b) hv)) →
    ∃ d1 evs, settleAll t0 win cb bids d evs0 = .ok (d1, evs0 ++ evs) ∧
      evs.filterMap tradeKeyOf = (if cb then bids else []) := by
  intro bids
  induction bids with
  | nil =>
    intro d evs0 _ _
    refine ⟨d, [], ?_, by cases cb <;> rfl⟩
    unfold settleAll
    rw [List.append_nil]
  | cons k rest ih =>
    intro d evs0 hnd hall
    obtain ⟨hk1, hk2, o, mv, b, hv, hpk⟩ := hall k (List.mem_cons_self k rest)
    obtain ⟨d1, hbr, hpk1, hother, hlen, _⟩ :=
      bookRead_inWindow t0 k.2 win d k.1 hk1 hk2
    have hpkk : peek t0 d k.1 k.2 = some (.onsale o mv (some b) hv) := hpk
    have hbr' : bookRead t0 win d k.1 k.2
        = some (.onsale o mv (some b) hv, d1) := by
      rw [hbr, hpkk]
      rfl
    rw [List.nodup_cons] at hnd
    have hrest : ∀ k2 ∈ rest, t0 ≤ k2.2 ∧ outOfWindow t0 win k2.2 = false ∧
        ∃ o2 mv2 b2 hv2,
          peek t0 (dataSet (k.2 - t0) d1 (k.1, k.2) (.used (some b))) k2.1 k2.2
            = some (.onsale o2 mv2 (some b2) hv2) := by
      intro k2 hk2mem
      obtain ⟨hj1, hj2, o2, mv2, b2, hv2, hpk2⟩ :=
        hall k2 (List.mem_cons_of_mem k hk2mem)
      have hne : ¬(k2.1 = k.1 ∧ k2.2 = k.2) := by
        intro hc
        exact hnd.1 (Prod.ext hc.1 hc.2 ▸ hk2mem)
      refine ⟨hj1, hj2, o2, mv2, b2, hv2, ?_⟩
      rw [peek_dataSet_other t0 k.2 k.1 _ d1 k2.1 k2.2 hk1 hj1 hne,
        hother k2.1 k2.2 hj1 hne]
      exact hpk2
    obtain ⟨d2, evs2, heq, hkeys⟩ :=
      ih (dataSet (k.2 - t0) d1 (k.1, k.2) (.used (some b)))
        (evs0 ++ (if cb then [Event.trade t0 o b k.1 k.2 hv] else [])
          ++ [Event.bought b k.1 k.2 hv] ++ soldEvents o k.1 k.2 hv)
        hnd.2 hrest
    refine ⟨d2, (if cb then [Event.trade t0 o b k.1 k.2 hv] else [])
      ++ [Event.bought b k.1 k.2 hv] ++ soldEvents o k.1 k.2 hv ++ evs2, ?_, ?_⟩
    · have hstep : settleAll t0 win cb (k :: rest) d evs0
          = settleAll t0 win cb rest
              (dataSet (k.2 - t0) d1 (k.1, k.2) (.used (some b)))
              (evs0 ++ (if cb then [Event.trade t0 o b k.1 k.2 hv] else [])
                ++ [Event.bought b k.1 k.2 hv] ++ soldEvents o k.1 k.2 hv) := by
        conv_lhs => unfold settleAll
        rw [hbr']
        rfl
      rw [hstep, heq]
      simp [List.append_assoc]
    · cases cb
      · cases o <;> simp [tradeKeyOf, soldEvents, hkeys]
      · cases o <;> simp [tradeKeyOf, soldEvents, hkeys]

/-- C7: starting a tick's phase 2 from a ledger with no pending bidder (the
state at every tick boundary), the driver records each key at most once in
`pending_bids` — in the order in which keys received their first accepted
bid — and phase 3 then settles exactly one trade per recorded key, emitting
the trade-callback records in exactly that order. -/
theorem one_trade_per_key_ordered (agents : List AgentSpec) (t0 : Nat)
    (win : Option Nat) (active : List Nat) (d : Data) (rng : Nat) (cb : Bool)
    (h : noPending d = true) :
    (phase2 agents t0 win active d rng).bids.Nodup ∧
    (phase2 agents t0 win active d rng).bids
      = firstOcc (phase2 agents t0 win active d rng).accepted ∧
    ∃ d1 evs, settleAll t0 win cb (phase2 agents t0 win active d rng).bids
        (phase2 agents t0 win active d rng).data [] = .ok (d1, evs) ∧
      evs.filterMap tradeKeyOf
        = (if cb then (phase2 agents t0 win active d rng).bids else []) := by
  obtain ⟨c1, c2, c3⟩ := bidsInvP_phase2_go agents t0 win active
    ⟨d, [], [], [], [], rng⟩ (bidsInvP_init t0 win d h)
  have c3' : (phase2 agents t0 win active d rng).bids
      = firstOcc (phase2 agents t0 win active d rng).accepted := c3
  have hnd : (phase2 agents t0 win active d rng).bids.Nodup := by
    rw [c3']
    exact firstOcc_nodup _
  obtain ⟨d1, evs, heq, hkeys⟩ := settleAll_ok_of_pending t0 win cb
    (phase2 agents t0 win active d rng).bids
    (phase2 agents t0 win active d rng).data [] hnd (fun k hk => c1 k hk)
  refine ⟨hnd, c3', d1, evs, ?_, hkeys⟩
  rw [heq, List.nil_append]

/-- Witness for `one_trade_per_key_ordered`: one agent bidding 5 on the
fresh key `(0, 0)` of an empty ledger. -/
theorem one_trade_per_key_ordered_w :
    (phase2 [wAgent1] 0 none [0] [] 0).bids.Nodup :=
  (one_trade_per_key_ordered [wAgent1] 0 none [0] [] 0 true (by decide)).1

end UAT
